import Mathlib

/-
Verification of the live-state synchronization core of the claude-viz
dashboard (a TypeScript/Node repository).  JavaScript strings are modelled
as `List Char`; timestamps (`Date.now()`, `stats.mtimeMs`) as `Nat`;
fallible I/O (file reads, `JSON.parse`) as `Except`/`Option` values that
are inputs of the modelled functions.  Every definition below is a direct
shallow embedding of a function of the repository (file and line are given
in its doc comment), except where a doc comment explicitly marks a
specification-side formulation used to state a claim.
-/

/-- Characters of a JavaScript string. -/
abbrev Str := List Char

/-- Character list of a Lean string literal (used for concrete inputs). -/
def str (s : String) : Str := s.data

/-- Membership in the character class `[a-z0-9]` of the slug regex in
`src/parsers/markdown.ts` (`parsePlan`). -/
def isSlugChar (c : Char) : Bool :=
  ('a' ≤ c && c ≤ 'z') || ('0' ≤ c && c ≤ '9')

/-- State-passing embedding of `String.prototype.replace(/[^a-z0-9]+/g, '-')`:
`inRun` records whether the previous character belonged to a run of
characters outside `[a-z0-9]` that has already emitted its single `'-'`. -/
def slugGo (inRun : Bool) : Str → Str
  | [] => []
  | c :: cs =>
    if isSlugChar c then c :: slugGo false cs
    else if inRun then slugGo true cs
    else '-' :: slugGo true cs

/-- Embedding of the slug computation
`title.toLowerCase().replace(/[^a-z0-9]+/g, '-')` from `parsePlan`
(`src/parsers/markdown.ts`).  `toLowerCase` is modelled characterwise by
`Char.toLower`, which agrees with JavaScript on the ASCII range. -/
def slugId (title : Str) : Str :=
  slugGo false (title.map Char.toLower)

/-- Specification-side relation, following the spec's words: the output is
obtained from the input by keeping `[a-z0-9]` characters and replacing every
maximal run of other characters by a single hyphen.  Maximality of a
replaced run is expressed by requiring the character following the run (if
any) to be inside `[a-z0-9]`. -/
inductive RunRepl : Str → Str → Prop where
  | nil : RunRepl [] []
  | keep {cs out : Str} (c : Char) (h : isSlugChar c = true)
      (ih : RunRepl cs out) : RunRepl (c :: cs) (c :: out)
  | dash {cs out : Str} (r : Str) (hne : r ≠ [])
      (hall : ∀ c ∈ r, isSlugChar c = false)
      (hmax : ∀ d, cs.head? = some d → isSlugChar d = true)
      (ih : RunRepl cs out) : RunRepl (r ++ cs) ('-' :: out)

theorem slugGo_true_append_bad (r : Str) (hall : ∀ c ∈ r, isSlugChar c = false) :
    ∀ cs : Str, slugGo true (r ++ cs) = slugGo true cs := by
  induction r with
  | nil => intro cs; rfl
  | cons a r ih =>
    intro cs
    have ha : isSlugChar a = false := hall a (by simp)
    have ih' := ih (fun c hc => hall c (by simp [hc]))
    simp [slugGo, ha, ih' cs]

theorem slugGo_false_run (r : Str) (hne : r ≠ [])
    (hall : ∀ c ∈ r, isSlugChar c = false) (cs : Str) :
    slugGo false (r ++ cs) = '-' :: slugGo true cs := by
  match r, hne with
  | a :: r, _ =>
    have ha : isSlugChar a = false := hall a (by simp)
    have h2 : ∀ c ∈ r, isSlugChar c = false := fun c hc => hall c (by simp [hc])
    simp [slugGo, ha, slugGo_true_append_bad r h2 cs]

theorem slugGo_true_eq_false (cs : Str)
    (hmax : ∀ d, cs.head? = some d → isSlugChar d = true) :
    slugGo true cs = slugGo false cs := by
  match cs with
  | [] => rfl
  | d :: ds =>
    have hd : isSlugChar d = true := hmax d rfl
    simp [slugGo, hd]

theorem head_dropWhile_not {α : Type} (p : α → Bool) (l : List α) :
    ∀ d, (l.dropWhile p).head? = some d → p d = false := by
  induction l with
  | nil => intro d h; simp [List.dropWhile] at h
  | cons a l ih =>
    intro d h
    by_cases hp : p a
    · rw [List.dropWhile_cons_of_pos hp] at h
      exact ih d h
    · rw [List.dropWhile_cons_of_neg hp] at h
      simp at h
      rw [← h]
      exact Bool.eq_false_iff.mpr hp

theorem runRepl_slugGo_aux :
    ∀ n : Nat, ∀ l : Str, l.length ≤ n → RunRepl l (slugGo false l) := by
  intro n
  induction n with
  | zero =>
    intro l hl
    have : l = [] := List.eq_nil_of_length_eq_zero (Nat.le_zero.mp hl)
    subst this
    exact RunRepl.nil
  | succ n ih =>
    intro l hl
    match l with
    | [] => exact RunRepl.nil
    | c :: cs =>
      by_cases hc : isSlugChar c
      · have : slugGo false (c :: cs) = c :: slugGo false cs := by simp [slugGo, hc]
        rw [this]
        exact RunRepl.keep c hc (ih cs (by simp at hl; omega))
      · have hc' : isSlugChar c = false := Bool.eq_false_iff.mpr hc
        have hsplit : c :: cs =
            (c :: cs.takeWhile (fun d => !isSlugChar d)) ++ cs.dropWhile (fun d => !isSlugChar d) := by
          simp [List.takeWhile_append_dropWhile]
        have hall : ∀ d ∈ c :: cs.takeWhile (fun d => !isSlugChar d), isSlugChar d = false := by
          intro d hd
          rcases List.mem_cons.mp hd with h | h
          · exact h ▸ hc'
          · have := List.mem_takeWhile_imp h
            simpa using this
        have hmax : ∀ d, (cs.dropWhile (fun d => !isSlugChar d)).head? = some d →
            isSlugChar d = true := by
          intro d hd
          have := head_dropWhile_not (fun d => !isSlugChar d) cs d hd
          simpa using this
        have hlen : (cs.dropWhile (fun d => !isSlugChar d)).length ≤ n := by
          have h1 : (cs.dropWhile (fun d => !isSlugChar d)).length ≤ cs.length :=
            (List.dropWhile_sublist _).length_le
          have h2 : cs.length + 1 ≤ n + 1 := by simpa using hl
          omega
        have hrw : slugGo false (c :: cs) =
            '-' :: slugGo false (cs.dropWhile (fun d => !isSlugChar d)) := by
          conv in slugGo false (c :: cs) => rw [hsplit]
          rw [slugGo_false_run _ (by simp) hall]
          rw [slugGo_true_eq_false _ hmax]
        rw [hrw, hsplit]
        exact RunRepl.dash _ (by simp) hall hmax (ih _ hlen)

theorem runRepl_slugGo (l : Str) : RunRepl l (slugGo false l) :=
  runRepl_slugGo_aux l.length l (Nat.le_refl _)

/-- C2 counterexample: the code's slug for the title "Step 1: Build!" is
"step-1-build-" (the trailing "!" is a maximal run outside `[a-z0-9]` and is
replaced by a hyphen), not "step-1-build" as the claim states. -/
theorem C2_slug_counterexample :
    slugId (str "Step 1: Build!") = str "step-1-build-" ∧
    slugId (str "Step 1: Build!") ≠ str "step-1-build" := by
  exact ⟨rfl, by decide⟩

/-- C2 (amended): for every section title, the derived id is the title
lower-cased with every maximal run of characters outside `[a-z0-9]`
replaced by a single hyphen; in particular the title "Step 1: Build!"
yields the id "step-1-build-" (with a trailing hyphen for the "!"). -/
theorem C2_slug_spec :
    (∀ title : Str, RunRepl (title.map Char.toLower) (slugId title)) ∧
    slugId (str "Step 1: Build!") = str "step-1-build-" :=
  ⟨fun title => runRepl_slugGo (title.map Char.toLower), rfl⟩

/-- Kind of a filesystem plan event (`'created' | 'modified' | 'deleted'`,
`src/types.ts` / `src/watchers/plan-watcher.ts`). -/
inductive UpdateKind where
  | created
  | modified
  | deleted
deriving DecidableEq

/-- `PlanFile` record (`src/types.ts`). -/
structure PlanFile where
  filename : Str
  path : Str
  content : Str
  lastModified : Nat
deriving DecidableEq

/-- `PlanUpdate` record (`src/types.ts`). -/
structure PlanUpdate where
  type : UpdateKind
  file : PlanFile
  timestamp : Nat
deriving DecidableEq

/-- One entry of `PlanHistory.versions` (`src/types.ts`). -/
structure PlanVersion where
  content : Str
  timestamp : Nat
deriving DecidableEq

/-- `PlanHistory` record (`src/types.ts`). -/
structure PlanHistory where
  filename : Str
  versions : List PlanVersion
deriving DecidableEq

/-- Embedding of the Update Hub's `planWatcher.on('update', ...)` handler,
`src/server.ts` lines 39-64: the `planHistory : Map<string, PlanHistory>`
is modelled as a function from filename to optional history, and the
handler's mutation of it as a functional update. -/
def handlePlanUpdate (hist : Str → Option PlanHistory) (u : PlanUpdate) :
    Str → Option PlanHistory :=
  if u.type = UpdateKind.deleted then hist
  else
    let history := (hist u.file.filename).getD
      { filename := u.file.filename, versions := [] }
    let vs := history.versions ++ [{ content := u.file.content, timestamp := u.timestamp }]
    let vs' := if 10 < vs.length then vs.tail else vs
    fun f => if f = u.file.filename then
      some { filename := history.filename, versions := vs' } else hist f

/-- The initially empty `planHistory` map (`src/server.ts` line 20). -/
def emptyPlanHistory : Str → Option PlanHistory := fun _ => none

/-- Sequential processing of a list of `PlanUpdate` events by the Hub. -/
def processPlanUpdates (evs : List PlanUpdate) : Str → Option PlanHistory :=
  evs.foldl handlePlanUpdate emptyPlanHistory

/-- Versions recorded for a filename (empty when no history entry exists). -/
def versionsOf (hist : Str → Option PlanHistory) (f : Str) : List PlanVersion :=
  match hist f with
  | none => []
  | some h => h.versions

/-- Last `n` elements of a list (specification-side helper). -/
def takeLast {α : Type} (n : Nat) (l : List α) : List α := l.drop (l.length - n)

/-- Specification-side: the `{content, timestamp}` pairs of the non-deleted
updates for filename `f`, in arrival order. -/
def relevantVersions (f : Str) (evs : List PlanUpdate) : List PlanVersion :=
  (evs.filter (fun u => decide (u.type ≠ UpdateKind.deleted ∧ u.file.filename = f))).map
    (fun u => { content := u.file.content, timestamp := u.timestamp })

theorem processPlanUpdates_append (evs : List PlanUpdate) (e : PlanUpdate) :
    processPlanUpdates (evs ++ [e]) = handlePlanUpdate (processPlanUpdates evs) e := by
  simp [processPlanUpdates, List.foldl_append]

theorem versionsOf_handle (st : Str → Option PlanHistory) (e : PlanUpdate) (f : Str)
    (hdel : e.type ≠ UpdateKind.deleted) :
    versionsOf (handlePlanUpdate st e) f =
      if f = e.file.filename then
        (if 10 < (versionsOf st f ++ [({ content := e.file.content, timestamp := e.timestamp } : PlanVersion)]).length
         then (versionsOf st f ++ [({ content := e.file.content, timestamp := e.timestamp } : PlanVersion)]).tail
         else versionsOf st f ++ [({ content := e.file.content, timestamp := e.timestamp } : PlanVersion)])
      else versionsOf st f := by
  by_cases hf : f = e.file.filename
  · cases hst : st e.file.filename <;>
      simp [handlePlanUpdate, versionsOf, hdel, hf, hst]
  · simp [handlePlanUpdate, versionsOf, hdel, hf]

theorem takeLast_append_singleton {α : Type} (l : List α) (v : α) :
    (if 10 < (takeLast 10 l ++ [v]).length
     then (takeLast 10 l ++ [v]).tail
     else takeLast 10 l ++ [v]) = takeLast 10 (l ++ [v]) := by
  simp only [takeLast]
  by_cases hk : l.length < 10
  · have h0 : l.length - 10 = 0 := by omega
    have h1 : l.length + 1 - 10 = 0 := by omega
    simp [h0, h1, show ¬ 10 < l.length + 1 by omega]
  · have h10 : 10 ≤ l.length := by omega
    have hlen : (l.drop (l.length - 10)).length = 10 := by
      rw [List.length_drop]; omega
    have hcond : 10 < (l.drop (l.length - 10) ++ [v]).length := by
      simp [hlen]
    rw [if_pos hcond]
    rw [← List.drop_one, List.drop_append_of_le_length (by omega : 1 ≤ (l.drop (l.length - 10)).length)]
    rw [List.drop_drop]
    have hL : (l ++ [v]).length - 10 = l.length + 1 - 10 := by
      simp
    rw [hL, List.drop_append_of_le_length (by omega : l.length + 1 - 10 ≤ l.length)]
    have : l.length - 10 + 1 = l.length + 1 - 10 := by omega
    rw [this]

theorem relevantVersions_append (f : Str) (evs : List PlanUpdate) (e : PlanUpdate) :
    relevantVersions f (evs ++ [e]) =
      relevantVersions f evs ++
        (if e.type ≠ UpdateKind.deleted ∧ e.file.filename = f
         then [({ content := e.file.content, timestamp := e.timestamp } : PlanVersion)]
         else []) := by
  by_cases h : e.type ≠ UpdateKind.deleted ∧ e.file.filename = f <;>
    simp [relevantVersions, List.filter_append, h]

theorem versions_spec (evs : List PlanUpdate) (f : Str) :
    versionsOf (processPlanUpdates evs) f = takeLast 10 (relevantVersions f evs) := by
  induction evs using List.reverseRecOn with
  | nil => rfl
  | append_singleton evs e ih =>
    rw [processPlanUpdates_append, relevantVersions_append]
    by_cases hdel : e.type = UpdateKind.deleted
    · have hid : handlePlanUpdate (processPlanUpdates evs) e = processPlanUpdates evs := by
        simp [handlePlanUpdate, hdel]
      rw [hid]
      simp [hdel, ih]
    · rw [versionsOf_handle _ _ _ hdel]
      by_cases hf : f = e.file.filename
      · rw [if_pos hf, ih]
        have hcond : e.type ≠ UpdateKind.deleted ∧ e.file.filename = f := ⟨hdel, hf.symm⟩
        rw [if_pos hcond]
        exact takeLast_append_singleton _ _
      · rw [if_neg hf, ih]
        have hcond : ¬ (e.type ≠ UpdateKind.deleted ∧ e.file.filename = f) := by
          intro hc; exact hf hc.2.symm
        rw [if_neg hcond]
        simp

/-- Fifteen sequential `modified` events for one plan filename, with
distinct contents and timestamps (concrete input for C1). -/
def fifteenMods : List PlanUpdate :=
  (List.range 15).map (fun i =>
    { type := UpdateKind.modified,
      file := { filename := str "plan.md", path := str "plan.md",
                content := List.replicate i 'x', lastModified := i },
      timestamp := i })

/-- C1: for every filename and every sequence of PlanUpdate events processed
by the Update Hub, that filename's history never exceeds 10 entries and
equals the last (at most) 10 `{content, timestamp}` pairs of the non-deleted
updates for it, in arrival order (so the oldest entry is evicted first);
in particular, after 15 sequential modifications exactly the last 10
versions are retained, in arrival order. -/
theorem C1_plan_history_bounded :
    (∀ (evs : List PlanUpdate) (f : Str),
      (versionsOf (processPlanUpdates evs) f).length ≤ 10 ∧
      versionsOf (processPlanUpdates evs) f = takeLast 10 (relevantVersions f evs)) ∧
    versionsOf (processPlanUpdates fifteenMods) (str "plan.md") =
      ((List.range 15).map (fun i =>
        ({ content := List.replicate i 'x', timestamp := i } : PlanVersion))).drop 5 := by
  refine ⟨fun evs f => ⟨?_, versions_spec evs f⟩, by decide⟩
  rw [versions_spec evs f, takeLast, List.length_drop]
  omega

/-- C9: a `deleted` PlanUpdate leaves every filename's PlanHistory exactly
as it was before: the Hub's handler returns the history map unchanged at
every filename. -/
theorem C9_deleted_noop (hist : Str → Option PlanHistory) (u : PlanUpdate) (f : Str)
    (h : u.type = UpdateKind.deleted) :
    handlePlanUpdate hist u f = hist f := by
  simp [handlePlanUpdate, h]

/-- A concrete history map holding one version for "a.md". -/
def sampleHistoryMap : Str → Option PlanHistory :=
  fun f => if f = str "a.md" then
    some { filename := str "a.md", versions := [{ content := str "v1", timestamp := 1 }] }
  else none

/-- A concrete `deleted` event for "a.md". -/
def sampleDelete : PlanUpdate :=
  { type := UpdateKind.deleted,
    file := { filename := str "a.md", path := str "a.md", content := [], lastModified := 7 },
    timestamp := 7 }

theorem C9_deleted_noop_witness :
    handlePlanUpdate sampleHistoryMap sampleDelete (str "a.md") = sampleHistoryMap (str "a.md") :=
  C9_deleted_noop sampleHistoryMap sampleDelete (str "a.md") rfl

/-- Internal task status (`src/types.ts`). -/
inductive TaskStatus where
  | pending
  | in_progress
  | completed
deriving DecidableEq

/-- Internal `TodoTask` record (`src/types.ts`). -/
structure TodoTask where
  content : Str
  activeForm : Str
  status : TaskStatus
  timestamp : Nat
deriving DecidableEq

/-- Internal `TodoState` record (`src/types.ts`). -/
structure TodoState where
  sessionId : Str
  tasks : List TodoTask
  lastUpdated : Nat
deriving DecidableEq

/-- `TodoStats` record (`src/types.ts`).  `completionPercentage` is an
integer because `Math.round` always yields one here. -/
structure TodoStats where
  total : Nat
  pending : Nat
  inProgress : Nat
  completed : Nat
  completionPercentage : Int
deriving DecidableEq

/-- JavaScript `string.split(sep)` for a one-character separator:
`"".split(sep)` is `[""]`, and adjacent separators yield empty pieces. -/
def jsSplit (sep : Char) : Str → List Str
  | [] => [[]]
  | c :: cs =>
    if c = sep then [] :: jsSplit sep cs
    else
      match jsSplit sep cs with
      | [] => [[c]]
      | w :: ws => (c :: w) :: ws

/-- JavaScript `array.join(sep)` for a one-character separator. -/
def jsJoin (sep : Char) : List Str → Str
  | [] => []
  | [w] => w
  | w :: ws => w ++ sep :: jsJoin sep ws

/-- Vowels of the `[aeiou]` classes in `generateActiveForm`'s regex. -/
def isVowel (c : Char) : Bool :=
  c = 'a' || c = 'e' || c = 'i' || c = 'o' || c = 'u'

/-- The test `firstWord.match(/[^aeiou][aeiou][^aeiou]$/)`: the word's last
three characters are non-vowel, vowel, non-vowel (false when the word has
fewer than three characters). -/
def cvcEnd (w : Str) : Bool :=
  match w.reverse with
  | last :: mid :: third :: _ => !isVowel last && isVowel mid && !isVowel third
  | _ => false

/-- JavaScript `word.slice(-1)`: the last character as a string. -/
def lastCharStr (w : Str) : Str :=
  match w.getLast? with
  | some c => [c]
  | none => []

/-- The inflection applied to the first word inside `generateActiveForm`
(`src/watchers/todo-watcher.ts` lines 111-122). -/
def inflectWord (w : Str) : Str :=
  if w.getLast? = some 'e' then w.dropLast ++ str "ing"
  else if cvcEnd w then w ++ lastCharStr w ++ str "ing"
  else w ++ str "ing"

/-- Embedding of `generateActiveForm`
(`src/watchers/todo-watcher.ts` lines 105-125).  Note the code returns
`activeWord + ' ' + words.slice(1).join(' ')`, appending a space even when
there are no remaining words. -/
def generateActiveForm (content : Str) : Str :=
  let words := jsSplit ' ' content
  match words with
  | [] => content
  | firstWord :: rest => inflectWord firstWord ++ ' ' :: jsJoin ' ' rest

/-- Specification-side form of C6: split on spaces, inflect the first word,
re-join with the remaining words unchanged. -/
def activeFormSpec (content : Str) : Str :=
  match jsSplit ' ' content with
  | [] => content
  | firstWord :: rest => jsJoin ' ' (inflectWord firstWord :: rest)

theorem jsSplit_ne_nil (sep : Char) (l : Str) : jsSplit sep l ≠ [] := by
  cases l with
  | nil => simp [jsSplit]
  | cons c cs =>
    by_cases h : c = sep
    · simp [jsSplit, h]
    · cases hs : jsSplit sep cs <;> simp [jsSplit, h, hs]

/-- C6 counterexample: for the single-word content "Run" the code yields
"Running " (with a trailing space), not the space-join "Running" that the
claim's split-inflect-rejoin procedure yields. -/
theorem C6_activeForm_counterexample :
    generateActiveForm (str "Run") = str "Running " ∧
    activeFormSpec (str "Run") = str "Running" ∧
    generateActiveForm (str "Run") ≠ activeFormSpec (str "Run") := by
  refine ⟨rfl, rfl, by decide⟩

/-- C6 (amended): the derived activeForm is the claim's
split-inflect-rejoin result, except that a trailing space is appended when
the content consists of a single word (no space); "Write tests" yields
"Writing tests" and "Run build" yields "Running build". -/
theorem C6_activeForm_spec :
    (∀ content : Str,
      generateActiveForm content =
        activeFormSpec content ++
          (if (jsSplit ' ' content).length = 1 then [' '] else [])) ∧
    generateActiveForm (str "Write tests") = str "Writing tests" ∧
    generateActiveForm (str "Run build") = str "Running build" := by
  refine ⟨fun content => ?_, rfl, rfl⟩
  cases hs : jsSplit ' ' content with
  | nil => exact absurd hs (jsSplit_ne_nil ' ' content)
  | cons w rest =>
    cases rest with
    | nil => simp [generateActiveForm, activeFormSpec, hs, jsJoin]
    | cons r rs => simp [generateActiveForm, activeFormSpec, hs, jsJoin]

/-- JavaScript `Math.round` on an exact rational: round to nearest integer,
halves toward positive infinity. -/
def jsRound (x : ℚ) : Int := ⌊x + 1/2⌋

/-- Embedding of `calculateStats` (`src/watchers/todo-watcher.ts` lines
131-144).  The floating-point expression `(completed / total) * 100` is
modelled as exact rational arithmetic. -/
def calculateStats (state : TodoState) : TodoStats :=
  let pending := (state.tasks.filter (fun t => decide (t.status = TaskStatus.pending))).length
  let inProgress := (state.tasks.filter (fun t => decide (t.status = TaskStatus.in_progress))).length
  let completed := (state.tasks.filter (fun t => decide (t.status = TaskStatus.completed))).length
  let total := state.tasks.length
  { total := total, pending := pending, inProgress := inProgress, completed := completed,
    completionPercentage :=
      if 0 < total then jsRound ((completed : ℚ) / (total : ℚ) * 100) else 0 }

/-- The status translation shared by `loadState` (lines 91-93) and
`loadSession` (lines 191-193) of `src/watchers/todo-watcher.ts`:
`'pending'` and `'in_progress'` pass through, anything else becomes
`'completed'`. -/
def mapStatus (s : Str) : TaskStatus :=
  if s = str "pending" then TaskStatus.pending
  else if s = str "in_progress" then TaskStatus.in_progress
  else TaskStatus.completed

/-- External task record of a Claude session file
(`[{content, status, priority, id}]`); only `content` and `status` are
read by the code, so only they are modelled. -/
structure ClaudeTodo where
  content : Str
  status : Str
deriving DecidableEq

/-- The per-record mapping of `claudeTodos.map(...)` in `loadState`
(lines 88-95) and `loadSession` (lines 188-195): `mtime` is the source
file's single modification time. -/
def mapTodo (mtime : Nat) (todo : ClaudeTodo) : TodoTask :=
  { content := todo.content,
    activeForm := generateActiveForm todo.content,
    status := mapStatus todo.status,
    timestamp := mtime }

/-- Result of `JSON.parse` on a session file, abstracted to what the code
inspects: an array of task records, or any non-array JSON value. -/
inductive JsonVal where
  | arr (todos : List ClaudeTodo)
  | other
deriving DecidableEq

/-- Decidable equality of modelled read outcomes. -/
instance {ε α : Type} [DecidableEq ε] [DecidableEq α] : DecidableEq (Except ε α)
  | Except.error e, Except.error f =>
    if h : e = f then isTrue (by rw [h]) else isFalse (by intro hc; cases hc; exact h rfl)
  | Except.error _, Except.ok _ => isFalse (by intro hc; cases hc)
  | Except.ok _, Except.error _ => isFalse (by intro hc; cases hc)
  | Except.ok a, Except.ok b =>
    if h : a = b then isTrue (by rw [h]) else isFalse (by intro hc; cases hc; exact h rfl)

/-- A file of the todos directory as the watcher can observe it: name,
modification time, and the outcome of reading it — outer `Except` is
`fs.readFile` failing, inner `Except` is `JSON.parse` throwing. -/
structure DirFile where
  name : Str
  mtime : Nat
  read : Except Unit (Except Unit JsonVal)
deriving DecidableEq

/-- `f.endsWith(s)` on character lists. -/
def strEndsWith (l s : Str) : Bool :=
  decide (l.reverse.take s.length = s.reverse)

/-- `fileStats.sort((a, b) => b.mtime - a.mtime)[0]` (line 74): the first
file with maximal mtime (stable sort keeps the earliest on ties). -/
def mostRecentFile (f : DirFile) (fs : List DirFile) : DirFile :=
  fs.foldl (fun best g => if best.mtime < g.mtime then g else best) f

/-- Embedding of `loadState` (`src/watchers/todo-watcher.ts` lines 50-103).
`dir` is the outcome of `fs.readdir`+`fs.stat` on the todos directory,
`old` the current live state (`this.currentState`), `now` the value of
`Date.now()`.  Every throwing path lands in the surrounding `catch`, which
leaves the current state untouched; a parsed non-array value also throws
(`claudeTodos.map` is not a function). -/
def loadState (dir : Except Unit (List DirFile)) (old : Option TodoState) (now : Nat) :
    Option TodoState :=
  match dir with
  | Except.error _ => old
  | Except.ok files =>
    match files.filter (fun f => strEndsWith f.name (str ".json")) with
    | [] => some { sessionId := str "no-session", tasks := [], lastUpdated := now }
    | f :: fs =>
      let mr := mostRecentFile f fs
      match mr.read with
      | Except.error _ => old
      | Except.ok (Except.error _) => old
      | Except.ok (Except.ok JsonVal.other) => old
      | Except.ok (Except.ok (JsonVal.arr todos)) =>
        some { sessionId := (jsSplit '-' mr.name).headD [],
               tasks := todos.map (mapTodo mr.mtime),
               lastUpdated := mr.mtime }

/-- Embedding of `loadSession` (`src/watchers/todo-watcher.ts` lines
177-202): read one named file of the directory; any failure (missing file,
read error, parse error, non-array) returns `null`. -/
def loadSession (files : List DirFile) (filename : Str) : Option TodoState :=
  match files.find? (fun f => decide (f.name = filename)) with
  | none => none
  | some f =>
    match f.read with
    | Except.error _ => none
    | Except.ok (Except.error _) => none
    | Except.ok (Except.ok JsonVal.other) => none
    | Except.ok (Except.ok (JsonVal.arr todos)) =>
      some { sessionId := (jsSplit '-' filename).headD [],
             tasks := todos.map (mapTodo f.mtime),
             lastUpdated := f.mtime }

/-- One entry of the `listSessions()` result (`src/watchers/todo-watcher.ts`
lines 158-162). -/
structure SessionInfo where
  filename : Str
  lastUpdated : Nat
  taskCount : Nat
deriving DecidableEq

/-- The per-file body of the `Promise.all` in `listSessions` (lines
151-164): `none` models a rejected promise (read or parse threw);
`Array.isArray(todos) ? todos.length : 0` gives the task count. -/
def sessionOf (f : DirFile) : Option SessionInfo :=
  match f.read with
  | Except.ok (Except.ok (JsonVal.arr todos)) =>
    some { filename := f.name, lastUpdated := f.mtime, taskCount := todos.length }
  | Except.ok (Except.ok JsonVal.other) =>
    some { filename := f.name, lastUpdated := f.mtime, taskCount := 0 }
  | _ => none

/-- `Promise.all(jsonFiles.map(...))`: all sessions, or failure as soon as
any single one fails. -/
def collectSessions : List DirFile → Option (List SessionInfo)
  | [] => some []
  | f :: fs =>
    match sessionOf f, collectSessions fs with
    | some s, some ss => some (s :: ss)
    | _, _ => none

/-- Embedding of `listSessions` (`src/watchers/todo-watcher.ts` lines
146-175): filter to `*.json`, read and parse all (any failure lands in the
`catch`, returning `[]`), keep sessions with tasks, sort by most recent
(stable descending, as V8's stable `sort` with `b.lastUpdated -
a.lastUpdated`), keep the first 50. -/
def listSessions (dir : Except Unit (List DirFile)) : List SessionInfo :=
  match dir with
  | Except.error _ => []
  | Except.ok files =>
    match collectSessions (files.filter (fun f => strEndsWith f.name (str ".json"))) with
    | none => []
    | some sessions =>
      (((sessions.filter (fun s => decide (0 < s.taskCount))).mergeSort
          (fun a b => decide (b.lastUpdated ≤ a.lastUpdated))).take 50)

/-- A task with the given status (concrete inputs). -/
def sampleTask (s : TaskStatus) : TodoTask :=
  { content := str "t", activeForm := str "ting", status := s, timestamp := 0 }

/-- A concrete TodoState with 3 tasks of which 1 is completed. -/
def sampleTodoState : TodoState :=
  { sessionId := str "s",
    tasks := [sampleTask TaskStatus.pending, sampleTask TaskStatus.in_progress,
              sampleTask TaskStatus.completed],
    lastUpdated := 0 }

/-- C5: calculateStats returns the task count as total, the per-status
counts, and a completionPercentage equal to round(100*completed/total)
when total is positive and 0 when total is 0; the concrete state with 1
completed task of 3 yields 33. -/
theorem C5_calculateStats_spec :
    (∀ state : TodoState,
      (calculateStats state).total = state.tasks.length ∧
      (calculateStats state).pending =
        (state.tasks.map TodoTask.status).count TaskStatus.pending ∧
      (calculateStats state).inProgress =
        (state.tasks.map TodoTask.status).count TaskStatus.in_progress ∧
      (calculateStats state).completed =
        (state.tasks.map TodoTask.status).count TaskStatus.completed ∧
      (calculateStats state).completionPercentage =
        (if 0 < state.tasks.length
         then ⌊100 * (((state.tasks.map TodoTask.status).count TaskStatus.completed : ℚ)) /
                (state.tasks.length : ℚ) + 1/2⌋
         else 0)) ∧
    (calculateStats sampleTodoState).completionPercentage = 33 := by
  constructor
  · intro state
    have hcount : ∀ s : TaskStatus,
        (state.tasks.map TodoTask.status).count s =
          (state.tasks.filter (fun t => decide (t.status = s))).length := by
      intro s
      rw [List.count_eq_countP, List.countP_map, ← List.countP_eq_length_filter]
      rfl
    refine ⟨rfl, (hcount _).symm, (hcount _).symm, (hcount _).symm, ?_⟩
    simp only [calculateStats, jsRound, hcount]
    by_cases h : 0 < state.tasks.length
    · rw [if_pos h, if_pos h]
      congr 1
      ring
    · rw [if_neg h, if_neg h]
  · show (if 0 < sampleTodoState.tasks.length
        then jsRound
          (((sampleTodoState.tasks.filter
              (fun t => decide (t.status = TaskStatus.completed))).length : ℚ) /
            (sampleTodoState.tasks.length : ℚ) * 100)
        else 0) = 33
    have hfil : (sampleTodoState.tasks.filter
        (fun t => decide (t.status = TaskStatus.completed))).length = 1 := by decide
    have hlen : sampleTodoState.tasks.length = 3 := by decide
    rw [hfil, hlen]
    norm_num [jsRound]

/-- C7: the external status strings "pending" and "in_progress" pass
through to the internal statuses, every other status string maps to
completed, and every record mapped during a reload or loadSession gets its
status through this translation. -/
theorem C7_status_mapping :
    mapStatus (str "pending") = TaskStatus.pending ∧
    mapStatus (str "in_progress") = TaskStatus.in_progress ∧
    (∀ s : Str, s ≠ str "pending" → s ≠ str "in_progress" →
      mapStatus s = TaskStatus.completed) ∧
    (∀ (mtime : Nat) (todos : List ClaudeTodo),
      (todos.map (mapTodo mtime)).map TodoTask.status =
        todos.map (fun t => mapStatus t.status)) ∧
    (mapTodo 0 { content := str "t", status := str "bogus" }).status =
      TaskStatus.completed := by
  refine ⟨by decide, by decide, ?_, ?_, by decide⟩
  · intro s h1 h2
    simp [mapStatus, h1, h2]
  · intro mtime todos
    simp [mapTodo]

theorem C7_status_mapping_witness : mapStatus (str "bogus") = TaskStatus.completed :=
  C7_status_mapping.2.2.1 (str "bogus") (by decide) (by decide)

/-- C3: when the selected (most recently modified) session file fails to
read or its content fails to parse, the reload leaves the previous live
TodoState entirely unchanged. -/
theorem C3_reload_error_retains (files : List DirFile) (old : Option TodoState) (now : Nat)
    (f : DirFile) (fs : List DirFile)
    (hjson : files.filter (fun g => strEndsWith g.name (str ".json")) = f :: fs)
    (hbad : (mostRecentFile f fs).read = Except.error () ∨
            (mostRecentFile f fs).read = Except.ok (Except.error ())) :
    loadState (Except.ok files) old now = old := by
  simp only [loadState]
  rw [hjson]
  rcases hbad with h | h <;> simp [h]

/-- A session file whose content is malformed JSON. -/
def sampleBadFile : DirFile :=
  { name := str "abc-1.json", mtime := 5, read := Except.ok (Except.error ()) }

theorem C3_reload_error_retains_witness :
    loadState (Except.ok [sampleBadFile]) (some sampleTodoState) 99 = some sampleTodoState :=
  C3_reload_error_retains [sampleBadFile] (some sampleTodoState) 99 sampleBadFile []
    (by decide) (Or.inr rfl)

theorem collectSessions_eq_none {files : List DirFile} {f : DirFile}
    (hmem : f ∈ files) (hf : sessionOf f = none) : collectSessions files = none := by
  induction files with
  | nil => cases hmem
  | cons x xs ih =>
    rcases List.mem_cons.mp hmem with h | h
    · cases h
      simp [collectSessions, hf]
    · cases hx : sessionOf x <;> simp [collectSessions, hx, ih h]

theorem listSessions_cases (dir : Except Unit (List DirFile)) :
    listSessions dir = [] ∨
    ∃ sessions : List SessionInfo,
      listSessions dir =
        ((sessions.filter (fun s => decide (0 < s.taskCount))).mergeSort
          (fun a b => decide (b.lastUpdated ≤ a.lastUpdated))).take 50 := by
  match dir with
  | Except.error _ => exact Or.inl rfl
  | Except.ok files =>
    cases h : collectSessions (files.filter (fun g => strEndsWith g.name (str ".json"))) with
    | none => exact Or.inl (by simp [listSessions, h])
    | some sessions => exact Or.inr ⟨sessions, by simp [listSessions, h]⟩

theorem sessions_mergeSort_sorted (l : List SessionInfo) :
    (l.mergeSort (fun a b => decide (b.lastUpdated ≤ a.lastUpdated))).Pairwise
      (fun a b => decide (b.lastUpdated ≤ a.lastUpdated) = true) :=
  @List.sorted_mergeSort SessionInfo
    (fun a b => decide (b.lastUpdated ≤ a.lastUpdated))
    (fun a b c hab hbc => by
      simp only [decide_eq_true_eq] at *
      omega)
    (fun a b => by
      simp only [Bool.or_eq_true, decide_eq_true_eq]
      omega)
    l

/-- C8: listSessions returns only sessions whose parsed task array is
non-empty, sorted descending by modification time, and at most 50 of them;
moreover (when all reads succeed) the result draws from the parsed
sessions, has exactly min(50, number of qualifying sessions) entries, and
is the most recent such selection: a qualifying session left out is never
more recent than any returned one; and (completeness) when at most 50
sessions qualify, every session with a non-empty task array is in the
result. -/
theorem C8_listSessions_spec :
    (∀ (dir : Except Unit (List DirFile)), ∀ s ∈ listSessions dir, 0 < s.taskCount) ∧
    (∀ dir : Except Unit (List DirFile),
      (listSessions dir).Pairwise (fun a b => b.lastUpdated ≤ a.lastUpdated)) ∧
    (∀ dir : Except Unit (List DirFile), (listSessions dir).length ≤ 50) ∧
    (∀ (files : List DirFile) (sessions : List SessionInfo),
      collectSessions (files.filter (fun g => strEndsWith g.name (str ".json"))) =
        some sessions →
      (∀ s ∈ listSessions (Except.ok files), s ∈ sessions ∧ 0 < s.taskCount) ∧
      (listSessions (Except.ok files)).length =
        min 50 (sessions.filter (fun s => decide (0 < s.taskCount))).length ∧
      (∀ s ∈ sessions, 0 < s.taskCount → s ∉ listSessions (Except.ok files) →
        ∀ r ∈ listSessions (Except.ok files), s.lastUpdated ≤ r.lastUpdated)) ∧
    (∀ (files : List DirFile) (sessions : List SessionInfo),
      collectSessions (files.filter (fun g => strEndsWith g.name (str ".json"))) =
        some sessions →
      (sessions.filter (fun s => decide (0 < s.taskCount))).length ≤ 50 →
      ∀ s ∈ sessions, 0 < s.taskCount → s ∈ listSessions (Except.ok files)) := by
  refine ⟨?_, ?_, ?_, ?_, ?_⟩
  · intro dir s hs
    rcases listSessions_cases dir with h | ⟨sessions, h⟩
    · rw [h] at hs; cases hs
    · rw [h] at hs
      have h1 := List.mem_of_mem_take hs
      have h2 := (List.mergeSort_perm _ _).mem_iff.mp h1
      have := List.of_mem_filter h2
      simpa using this
  · intro dir
    rcases listSessions_cases dir with h | ⟨sessions, h⟩
    · rw [h]; exact List.Pairwise.nil
    · rw [h]
      have hsorted := sessions_mergeSort_sorted
        (sessions.filter (fun s => decide (0 < s.taskCount)))
      have := List.Pairwise.sublist (List.take_sublist 50 _) hsorted
      exact this.imp (fun h => by simpa using h)
  · intro dir
    rcases listSessions_cases dir with h | ⟨sessions, h⟩
    · rw [h]; simp
    · rw [h]; exact List.length_take_le _ _
  · intro files sessions hcol
    have hres : listSessions (Except.ok files) =
        ((sessions.filter (fun s => decide (0 < s.taskCount))).mergeSort
          (fun a b => decide (b.lastUpdated ≤ a.lastUpdated))).take 50 := by
      simp [listSessions, hcol]
    have hperm := List.mergeSort_perm
      (sessions.filter (fun s => decide (0 < s.taskCount)))
      (fun a b => decide (b.lastUpdated ≤ a.lastUpdated))
    refine ⟨?_, ?_, ?_⟩
    · intro s hs
      rw [hres] at hs
      have h1 := List.mem_of_mem_take hs
      have h2 := hperm.mem_iff.mp h1
      exact ⟨(List.mem_filter.mp h2).1, by simpa using List.of_mem_filter h2⟩
    · rw [hres, List.length_take, hperm.length_eq]
    · intro s hs hpos hnot r hr
      have hsf : s ∈ sessions.filter (fun s => decide (0 < s.taskCount)) :=
        List.mem_filter.mpr ⟨hs, by simpa using hpos⟩
      have hsl := hperm.mem_iff.mpr hsf
      rw [hres] at hnot hr
      have hsd : s ∈ ((sessions.filter (fun s => decide (0 < s.taskCount))).mergeSort
          (fun a b => decide (b.lastUpdated ≤ a.lastUpdated))).drop 50 := by
        have hsplit := List.take_append_drop 50
          ((sessions.filter (fun s => decide (0 < s.taskCount))).mergeSort
            (fun a b => decide (b.lastUpdated ≤ a.lastUpdated)))
        rw [← hsplit] at hsl
        rcases List.mem_append.mp hsl with h | h
        · exact absurd h hnot
        · exact h
      have hsorted := sessions_mergeSort_sorted
        (sessions.filter (fun s => decide (0 < s.taskCount)))
      have hsplit := List.take_append_drop 50
        ((sessions.filter (fun s => decide (0 < s.taskCount))).mergeSort
          (fun a b => decide (b.lastUpdated ≤ a.lastUpdated)))
      rw [← hsplit] at hsorted
      have hbound := (List.pairwise_append.mp hsorted).2.2 r hr s hsd
      simpa using hbound
  · intro files sessions hcol hle s hs hpos
    have hmem : s ∈ sessions.filter (fun s => decide (0 < s.taskCount)) :=
      List.mem_filter.mpr ⟨hs, by simpa using hpos⟩
    have hperm := List.mergeSort_perm
      (sessions.filter (fun s => decide (0 < s.taskCount)))
      (fun a b => decide (b.lastUpdated ≤ a.lastUpdated))
    have hlen : ((sessions.filter (fun s => decide (0 < s.taskCount))).mergeSort
        (fun a b => decide (b.lastUpdated ≤ a.lastUpdated))).length ≤ 50 := by
      rw [hperm.length_eq]; exact hle
    simp only [listSessions, hcol]
    rw [List.take_of_length_le hlen]
    exact hperm.mem_iff.mpr hmem

/-- A session file with one task. -/
def sampleGoodFile : DirFile :=
  { name := str "aaa-1.json", mtime := 9,
    read := Except.ok (Except.ok (JsonVal.arr [{ content := str "Do it", status := str "pending" }])) }

/-- A well-formed session file whose task array is empty. -/
def sampleEmptyFile : DirFile :=
  { name := str "ccc-3.json", mtime := 4, read := Except.ok (Except.ok (JsonVal.arr [])) }

/-- The sessions parsed from `[sampleGoodFile, sampleEmptyFile]`. -/
def sampleSessions : List SessionInfo :=
  [{ filename := str "aaa-1.json", lastUpdated := 9, taskCount := 1 },
   { filename := str "ccc-3.json", lastUpdated := 4, taskCount := 0 }]

theorem C8_listSessions_spec_witness :
    ({ filename := str "aaa-1.json", lastUpdated := 9, taskCount := 1 } : SessionInfo) ∈
      listSessions (Except.ok [sampleGoodFile, sampleEmptyFile]) ∧
    (listSessions (Except.ok [sampleGoodFile, sampleEmptyFile])).length =
      min 50 ((sampleSessions.filter (fun s => decide (0 < s.taskCount))).length) :=
  ⟨C8_listSessions_spec.2.2.2.2 [sampleGoodFile, sampleEmptyFile] sampleSessions
      (by decide) (by decide) _ (by decide) (by decide),
   (C8_listSessions_spec.2.2.2.1 [sampleGoodFile, sampleEmptyFile] sampleSessions
      (by decide)).2.1⟩

/-- A session file that cannot be read at all. -/
def sampleUnreadableFile : DirFile :=
  { name := str "bbb-2.json", mtime := 3, read := Except.error () }

/-- C10: if reading or parsing any single session file fails, listSessions
returns the empty list for that call — every other session, well-formed
and non-empty ones included, is absent from the listing. -/
theorem C10_listSessions_error_hides_all (files : List DirFile) (f : DirFile)
    (hmem : f ∈ files.filter (fun g => strEndsWith g.name (str ".json")))
    (hbad : sessionOf f = none) :
    listSessions (Except.ok files) = [] := by
  simp only [listSessions]
  rw [collectSessions_eq_none hmem hbad]

theorem C10_listSessions_error_hides_all_witness :
    listSessions (Except.ok [sampleGoodFile, sampleUnreadableFile]) = [] :=
  C10_listSessions_error_hides_all [sampleGoodFile, sampleUnreadableFile]
    sampleUnreadableFile (by decide) rfl

/-- The regex class `\s`, restricted to ASCII whitespace (JavaScript's `\s`
additionally matches some Unicode spaces). -/
def jsSpace (c : Char) : Bool :=
  c = ' ' || c = '\t' || c = '\n' || c = '\r' || c = '\x0b' || c = '\x0c'

/-- Match semantics of `line.match(/^(#{1,6})\s+(.+)$/)` in `parsePlan`
(`src/parsers/markdown.ts`): on success, the number of leading `#`
characters and the title capture.  When everything after the `#` run is
whitespace, `\s+` backtracks by one character so that `(.+)` can match the
line's last whitespace character (this needs at least two whitespace
characters). -/
def headingOf (line : Str) : Option (Nat × Str) :=
  let k := (line.takeWhile (fun c => c = '#')).length
  if 1 ≤ k ∧ k ≤ 6 then
    let rest := line.dropWhile (fun c => c = '#')
    let ws := rest.takeWhile jsSpace
    let tl := rest.dropWhile jsSpace
    if ws.length = 0 then none
    else if tl ≠ [] then some (k, tl)
    else if 2 ≤ ws.length then
      match ws.getLast? with
      | some c => some (k, [c])
      | none => none
    else none
  else none

/-- `PlanSection` record (`src/types.ts`). -/
structure PlanSection where
  level : Nat
  title : Str
  content : Str
  id : Str
deriving DecidableEq

/-- Embedding of the section-extraction loop of `parsePlan`
(`src/parsers/markdown.ts` lines 988-1029): `cur` is the open section's
`(level, title)` and `content` its accumulated body lines.  The `steps`
list and the rendered HTML computed alongside are not modelled (no claim
concerns them). -/
def parsePlanGo : List Str → Option (Nat × Str) → List Str → List PlanSection
  | [], none, _ => []
  | [], some (lv, t), content => [⟨lv, t, jsJoin '\n' content, slugId t⟩]
  | line :: rest, cur, content =>
    match headingOf line with
    | some (lv, t) =>
      match cur with
      | none => parsePlanGo rest (some (lv, t)) []
      | some (lv0, t0) =>
        ⟨lv0, t0, jsJoin '\n' content, slugId t0⟩ :: parsePlanGo rest (some (lv, t)) []
    | none =>
      match cur with
      | none => parsePlanGo rest none content
      | some c => parsePlanGo rest (some c) (content ++ [line])

/-- `markdown.split('\n')` (line 988). -/
def splitLines (md : Str) : List Str := jsSplit '\n' md

/-- The sections produced by `parsePlan` for a markdown document. -/
def parsePlan (md : Str) : List PlanSection := parsePlanGo (splitLines md) none []

/-- Specification-side: the section `s` was produced from the original
heading line `p.1` (whose match gives exactly the section's level and
title) followed by the body lines `p.2`, which joined by newlines are the
section's recorded content. -/
def secPiece (s : PlanSection) (p : Str × List Str) : Prop :=
  headingOf p.1 = some (s.level, s.title) ∧
  s.content = jsJoin '\n' p.2 ∧
  s.id = slugId s.title

theorem parsePlanGo_spec :
    ∀ (lines : List Str) (lv : Nat) (t : Str) (curLine : Str) (content : List Str),
      headingOf curLine = some (lv, t) →
      ∃ pieces : List (Str × List Str),
        List.Forall₂ secPiece (parsePlanGo lines (some (lv, t)) content) pieces ∧
        (pieces.map (fun p => p.1 :: p.2)).flatten = curLine :: (content ++ lines) := by
  intro lines
  induction lines with
  | nil =>
    intro lv t curLine content h
    refine ⟨[(curLine, content)], ?_, ?_⟩
    · exact List.Forall₂.cons ⟨h, rfl, rfl⟩ List.Forall₂.nil
    · simp
  | cons line rest ih =>
    intro lv t curLine content h
    cases hline : headingOf line with
    | some lvt =>
      obtain ⟨lv', t'⟩ := lvt
      obtain ⟨pieces, hF, hflat⟩ := ih lv' t' line [] hline
      refine ⟨(curLine, content) :: pieces, ?_, ?_⟩
      · have hgo : parsePlanGo (line :: rest) (some (lv, t)) content =
            ⟨lv, t, jsJoin '\n' content, slugId t⟩ :: parsePlanGo rest (some (lv', t')) [] := by
          simp [parsePlanGo, hline]
        rw [hgo]
        exact List.Forall₂.cons ⟨h, rfl, rfl⟩ hF
      · simp [hflat]
    | none =>
      obtain ⟨pieces, hF, hflat⟩ := ih lv t curLine (content ++ [line]) h
      refine ⟨pieces, ?_, ?_⟩
      · have hgo : parsePlanGo (line :: rest) (some (lv, t)) content =
            parsePlanGo rest (some (lv, t)) (content ++ [line]) := by
          simp [parsePlanGo, hline]
        rw [hgo]
        exact hF
      · rw [hflat]
        simp

theorem parsePlanGo_dropWhile (lines : List Str) (content : List Str) :
    parsePlanGo lines none content =
      parsePlanGo (lines.dropWhile (fun l => (headingOf l).isNone)) none content := by
  induction lines with
  | nil => rfl
  | cons line rest ih =>
    cases hline : headingOf line with
    | some lvt =>
      rw [List.dropWhile_cons_of_neg (by simp [hline])]
    | none =>
      rw [List.dropWhile_cons_of_pos (by simp [hline])]
      have hgo : parsePlanGo (line :: rest) none content = parsePlanGo rest none content := by
        simp [parsePlanGo, hline]
      rw [hgo, ih]

/-- C4: for every markdown input, the extracted sections' recorded contents,
re-interleaved with the stripped heading lines (each of which matches the
heading pattern with exactly its section's level and title), reconstruct
the original input's line sequence, modulo only the lines discarded before
the first heading. -/
theorem C4_parsePlan_roundTrip (md : Str) :
    ∃ pieces : List (Str × List Str),
      List.Forall₂ secPiece (parsePlan md) pieces ∧
      splitLines md =
        (splitLines md).takeWhile (fun l => (headingOf l).isNone) ++
          (pieces.map (fun p => p.1 :: p.2)).flatten := by
  cases hdrop : (splitLines md).dropWhile (fun l => (headingOf l).isNone) with
  | nil =>
    refine ⟨[], ?_, ?_⟩
    · show List.Forall₂ secPiece (parsePlanGo (splitLines md) none []) []
      rw [parsePlanGo_dropWhile, hdrop]
      exact List.Forall₂.nil
    · have hsplit := List.takeWhile_append_dropWhile
        (fun l => (headingOf l).isNone) (splitLines md)
      rw [hdrop] at hsplit
      simpa using hsplit.symm
  | cons h rest =>
    have hhead : (headingOf h).isNone = false := by
      exact head_dropWhile_not (fun l => (headingOf l).isNone) (splitLines md) h
        (by rw [hdrop]; rfl)
    obtain ⟨⟨lv, t⟩, hh⟩ : ∃ lvt, headingOf h = some lvt := by
      cases hho : headingOf h with
      | none => rw [hho] at hhead; simp at hhead
      | some lvt => exact ⟨lvt, rfl⟩
    obtain ⟨pieces, hF, hflat⟩ := parsePlanGo_spec rest lv t h [] hh
    refine ⟨pieces, ?_, ?_⟩
    · show List.Forall₂ secPiece (parsePlanGo (splitLines md) none []) pieces
      rw [parsePlanGo_dropWhile, hdrop]
      have hgo : parsePlanGo (h :: rest) none [] = parsePlanGo rest (some (lv, t)) [] := by
        simp [parsePlanGo, hh]
      rw [hgo]
      exact hF
    · have hsplit := List.takeWhile_append_dropWhile
        (fun l => (headingOf l).isNone) (splitLines md)
      rw [hdrop] at hsplit
      conv_lhs => rw [← hsplit]
      congr 1
      simp at hflat
      exact hflat.symm
